import Mathlib

/-!
Verification of the shellexpand expansion engine (src/lib.rs).

The Rust code scans UTF-8 strings by byte index: `str::find` returns byte
offsets and slicing `s[a..b]` panics unless both endpoints lie on character
boundaries.  We therefore model a string as a `List Char` together with the
UTF-8 byte width of each character, and model every slice the source takes as
a partial operation that returns `none` exactly when Rust would panic.

The variable scanner `env_with_context` is a single left-to-right loop.  Its
loop state is `(input_str, next_dollar_idx)`, but by inspection of the source
`next_dollar_idx` always equals `find_dollar(input_str)` on entry to the loop
body (initially it is the result of `input_str.find('$')`, which agrees with
`find_dollar` when a dollar exists; every branch re-establishes it by calling
`find_dollar`).  We therefore embed the loop as a step function `envStepO`
computing one iteration (literal prefix up to the next dollar plus one
reference/escape), and a driver that iterates it.  The driver carries a fuel
argument so it is structurally recursive; each step that continues consumes at
least one character, so fuel `length + 1` is always sufficient (proved below).

The character class used by the scanner is Rust's `char::is_alphanumeric`, a
Unicode property external to this crate.  The embedding is parametric in that
oracle (`alnum`); theorems assume only facts that hold of the real oracle
(for example `alnum '$' = false`, or `alnum 'ф' = true` for the Cyrillic
letter ef).
-/

namespace ShellExpand

/-- UTF-8 byte width of a character; models Rust's `char::len_utf8`. -/
def charSize (c : Char) : Nat :=
  if c.toNat < 0x80 then 1
  else if c.toNat < 0x800 then 2
  else if c.toNat < 0x10000 then 3
  else 4

/-- Total UTF-8 byte length of a string; models Rust's `str::len`. -/
def utf8Len : List Char → Nat
  | [] => 0
  | c :: s => charSize c + utf8Len s

/-- Byte offset of the first character satisfying `p`; models `str::find`. -/
def byteFind (p : Char → Bool) : List Char → Option Nat
  | [] => none
  | c :: s => if p c then some 0 else (byteFind p s).map (· + charSize c)

/-- Suffix of `s` from byte offset `n`; models the Rust slice `s[n..]`,
with `none` exactly when Rust panics (offset out of range or not on a
character boundary). -/
def byteDrop (s : List Char) (n : Nat) : Option (List Char) :=
  match n, s with
  | 0, s => some s
  | _+1, [] => none
  | n+1, c :: s' => if charSize c ≤ n+1 then byteDrop s' (n+1 - charSize c) else none

/-- Prefix of `s` up to byte offset `n`; models the Rust slice `s[..n]`,
with `none` exactly when Rust panics. -/
def byteTake (s : List Char) (n : Nat) : Option (List Char) :=
  match n, s with
  | 0, _ => some []
  | _+1, [] => none
  | n+1, c :: s' => if charSize c ≤ n+1 then (byteTake s' (n+1 - charSize c)).map (c :: ·) else none

/-- The Rust slice `s[a..b]`: panics (`none`) when `a > b` or either endpoint
is not a character boundary. -/
def byteSlice (s : List Char) (a b : Nat) : Option (List Char) :=
  if a ≤ b then (byteDrop s a).bind (fun t => byteTake t (b - a)) else none

/-- Models the inner helper `fn find_dollar(s: &str) -> usize`. -/
def findDollar (s : List Char) : Nat :=
  (byteFind (fun c => c == '$') s).getD (utf8Len s)

/-- Models `is_valid_var_name_char`: `c.is_alphanumeric() || c == '_'`,
parametric in the `is_alphanumeric` oracle. -/
def is_valid_var_name_char (alnum : Char → Bool) (c : Char) : Bool :=
  alnum c || c == '_'

/-- Models `std::borrow::Cow<str>`: either a borrowed view of the input or a
newly allocated string. -/
inductive Cow where
  | borrowed (s : List Char)
  | owned (s : List Char)
deriving DecidableEq

/-- The text of a `Cow`, regardless of ownership. -/
def Cow.str : Cow → List Char
  | .borrowed s => s
  | .owned s => s

/-- Whether a `Cow` is the borrowed variant. -/
def Cow.isBorrowed : Cow → Bool
  | .borrowed _ => true
  | .owned _ => false

/-- Models `LookupError { name, cause }`. -/
structure LookupError (ε : Type) where
  name : List Char
  cause : ε
deriving DecidableEq

/-- Outcome of one iteration of the scanner loop. -/
inductive StepOut (ε : Type) where
  | done (out : List Char)
  | panicked
  | err (e : LookupError ε)
  | cont (emit : List Char) (s2 : List Char)

/-- Prepend a literal prefix to the text a step emits. -/
def StepOut.prepend (p : List Char) : StepOut ε → StepOut ε
  | .done out => .done (p ++ out)
  | .cont emit s2 => .cont (p ++ emit) s2
  | x => x

/-- Result of running the scanner loop: `panicked` models a Rust panic,
`outOfFuel` never occurs for the fuel used by `envRun` (proved below). -/
inductive RunRes (ε : Type) where
  | outOfFuel
  | panicked
  | ok (r : Except (LookupError ε) (List Char))

/-- Apply `f` to a successful scan result, leaving errors and panics alone. -/
def RunRes.mapOk (f : List Char → List Char) : RunRes ε → RunRes ε
  | .ok (.ok t) => .ok (.ok (f t))
  | x => x

/-- One iteration of the loop inside `env_with_context` (src/lib.rs lines
289-348): copy the literal text up to the next `$`, stop if the rest is
empty, otherwise classify what follows the `$` exactly as the source does
and either substitute, copy literally, fail, or panic. -/
def envStepO {ε : Type} (alnum : Char → Bool)
    (ctx : List Char → Except ε (Option (List Char))) (s : List Char) : StepOut ε :=
  let i := findDollar s
  match byteTake s i, byteDrop s i with
  | some pre, some s1 =>
    if s1.isEmpty then .done pre
    else
      -- next_char = input_str[1..].chars().next()
      match byteDrop s1 1 with
      | none => .panicked
      | some afterDollar =>
        let next_char := afterDollar.head?
        if next_char == some '\x7b' then
          match byteFind (fun c => c == '\x7d') s1 with
          | some cb =>
            -- var_name = &input_str[2..closing_brace_idx]
            match byteSlice s1 2 cb with
            | none => .panicked
            | some var_name =>
              match ctx var_name with
              | .error e => .err ⟨var_name, e⟩
              | .ok (some v) =>
                match byteDrop s1 (cb + 1) with
                | none => .panicked
                | some s2 => .cont (pre ++ v) s2
              | .ok none =>
                match byteTake s1 (cb + 1), byteDrop s1 (cb + 1) with
                | some lit, some s2 => .cont (pre ++ lit) s2
                | _, _ => .panicked
          | none =>
            -- unterminated brace: copy both characters literally
            match byteTake s1 2, byteDrop s1 2 with
            | some lit, some s2 => .cont (pre ++ lit) s2
            | _, _ => .panicked
        else if (next_char.map (is_valid_var_name_char alnum)) == some true then
          -- end_idx = 2 + input_str[2..].find(not valid).unwrap_or(len - 2)
          match byteDrop s1 2 with
          | none => .panicked
          | some after2 =>
            let end_idx := 2 +
              (byteFind (fun c => !(is_valid_var_name_char alnum c)) after2).getD (utf8Len s1 - 2)
            match byteSlice s1 1 end_idx with
            | none => .panicked
            | some var_name =>
              match ctx var_name with
              | .error e => .err ⟨var_name, e⟩
              | .ok (some v) =>
                match byteDrop s1 end_idx with
                | none => .panicked
                | some s2 => .cont (pre ++ v) s2
              | .ok none =>
                match byteTake s1 end_idx, byteDrop s1 end_idx with
                | some lit, some s2 => .cont (pre ++ lit) s2
                | _, _ => .panicked
        else
          -- literal dollar; `$$` is an escape consuming both characters:
          -- input_str = if next_char == Some('$') { &input_str[2..] } else { &input_str[1..] }
          if next_char == some '$' then
            match byteDrop s1 2 with
            | none => .panicked
            | some s2 => .cont (pre ++ ['$']) s2
          else
            match byteDrop s1 1 with
            | none => .panicked
            | some s2 => .cont (pre ++ ['$']) s2
  | _, _ => .panicked

/-- Fuel-indexed driver iterating `envStepO`; the emitted pieces are
concatenated in scan order, matching the `result` accumulator of the source. -/
def envLoopF {ε : Type} (alnum : Char → Bool)
    (ctx : List Char → Except ε (Option (List Char))) : Nat → List Char → RunRes ε
  | 0, _ => .outOfFuel
  | f + 1, s =>
    match envStepO alnum ctx s with
    | .done out => .ok (.ok out)
    | .panicked => .panicked
    | .err e => .ok (.error e)
    | .cont emit s2 => (envLoopF alnum ctx f s2).mapOk (fun t => emit ++ t)

/-- The scanner loop with sufficient fuel (each continuing step consumes at
least one character, see `envLoopF_congr`). -/
def envRun {ε : Type} (alnum : Char → Bool)
    (ctx : List Char → Except ε (Option (List Char))) (s : List Char) : RunRes ε :=
  envLoopF alnum ctx (s.length + 1) s

/-- Top-level result of `env_with_context` / `full_with_context`. -/
inductive ExpandRes (ε : Type) where
  | outOfFuel
  | panicked
  | ok (r : Except (LookupError ε) Cow)

/-- Models `env_with_context` (src/lib.rs lines 278-353): if no `$` occurs
the borrowed input is returned; otherwise the loop runs and its result is
returned as an owned string. -/
def env_with_context {ε : Type} (alnum : Char → Bool) (input : List Char)
    (ctx : List Char → Except ε (Option (List Char))) : ExpandRes ε :=
  match byteFind (fun c => c == '$') input with
  | some _ =>
    match envRun alnum ctx input with
    | .outOfFuel => .outOfFuel
    | .panicked => .panicked
    | .ok (.error e) => .ok (.error e)
    | .ok (.ok t) => .ok (.ok (.owned t))
  | none => .ok (.ok (.borrowed input))

/-- Models `str::starts_with("~")`. -/
def startsWithTilde (s : List Char) : Bool := s.head? == some '~'

/-- Models `tilde_with_context` (src/lib.rs lines 374-398).  The
home-directory provider is represented by its outcome: `some h` when a home
directory with textual form `h` (via `Path::display`) is available. -/
def tilde_with_context (input : List Char) (home_dir : Option (List Char)) : Cow :=
  match input with
  | [] => .borrowed []
  | c :: rest =>
    if c == '~' then
      if rest.isEmpty || rest.head? == some '/' then
        match home_dir with
        | some hd => .owned (hd ++ rest)
        | none => .borrowed (c :: rest)
      else .borrowed (c :: rest)
    else .borrowed (c :: rest)

/-- Eligibility condition of the tilde expander: the input starts with `~`
which is the whole input or is immediately followed by `/`. -/
def tildeEligible (s : List Char) : Bool :=
  match s with
  | [] => false
  | c :: rest => c == '~' && (rest.isEmpty || rest.head? == some '/')

/-- Models `full_with_context` (src/lib.rs lines 154-180). -/
def full_with_context {ε : Type} (alnum : Char → Bool) (input : List Char)
    (home_dir : Option (List Char))
    (ctx : List Char → Except ε (Option (List Char))) : ExpandRes ε :=
  match env_with_context alnum input ctx with
  | .outOfFuel => .outOfFuel
  | .panicked => .panicked
  | .ok (.error e) => .ok (.error e)
  | .ok (.ok r) =>
    .ok (.ok (match r with
      | .borrowed s => tilde_with_context s home_dir
      | .owned s =>
        if !(startsWithTilde input) && startsWithTilde s then .owned s
        else
          match tilde_with_context s home_dir with
          | .owned s2 => .owned s2
          | .borrowed _ => .owned s))

/-- A concrete stand-in for the `is_alphanumeric` oracle that agrees with the
real one on ASCII characters. -/
def asciiAlnum (c : Char) : Bool := c.isAlphanum

/-- A concrete oracle additionally classifying the Cyrillic letter `ф` as
alphanumeric, as Rust's `char::is_alphanumeric` does. -/
def alnumPhi (c : Char) : Bool := c.isAlphanum || c == 'ф'

/-- A lookup context resolving nothing and never failing. -/
def ctxNone : List Char → Except Unit (Option (List Char)) :=
  fun _ => .ok none

/-- A lookup context failing on `X` with `c1` and on `Y` with `c2`. -/
def ctxXY {ε : Type} (c1 c2 : ε) : List Char → Except ε (Option (List Char)) :=
  fun n => if n = "X".data then .error c1 else if n = "Y".data then .error c2 else .ok none

/-- A lookup context resolving `VAR` to `/val`. -/
def ctxSlashVar : List Char → Except Unit (Option (List Char)) :=
  fun n => if n = "VAR".data then .ok (some "/val".data) else .ok none

/-- A lookup context whose only failure is on the name `$$`. -/
def ctxDollarsErr : List Char → Except Unit (Option (List Char)) :=
  fun n => if n = "$$".data then .error () else .ok none

/-- A lookup context resolving the name `$$` to `X`. -/
def ctxDollarsRes : List Char → Except Unit (Option (List Char)) :=
  fun n => if n = "$$".data then .ok (some "X".data) else .ok none

/-- A lookup context resolving the empty name to `E`. -/
def ctxEmptyName : List Char → Except Unit (Option (List Char)) :=
  fun n => if n = ([] : List Char) then .ok (some "E".data) else .ok none

deriving instance DecidableEq for Except

deriving instance DecidableEq for StepOut

deriving instance DecidableEq for RunRes

deriving instance DecidableEq for ExpandRes

/-! ### Basic facts about the byte-level primitives -/

theorem charSize_pos (c : Char) : 1 ≤ charSize c := by
  unfold charSize
  repeat' split
  all_goals omega

theorem byteDrop_zero (s : List Char) : byteDrop s 0 = some s := by
  cases s <;> rfl

theorem byteTake_zero (s : List Char) : byteTake s 0 = some [] := by
  cases s <;> rfl

theorem utf8Len_nil : utf8Len [] = 0 := rfl

theorem utf8Len_cons (c : Char) (s : List Char) :
    utf8Len (c :: s) = charSize c + utf8Len s := rfl

theorem byteDrop_cons (c : Char) (s : List Char) (n : Nat) (h : 1 ≤ n) :
    byteDrop (c :: s) n = if charSize c ≤ n then byteDrop s (n - charSize c) else none := by
  cases n with
  | zero => omega
  | succ m => rfl

theorem byteTake_cons (c : Char) (s : List Char) (n : Nat) (h : 1 ≤ n) :
    byteTake (c :: s) n =
      if charSize c ≤ n then (byteTake s (n - charSize c)).map (c :: ·) else none := by
  cases n with
  | zero => omega
  | succ m => rfl

theorem utf8Len_append (a b : List Char) : utf8Len (a ++ b) = utf8Len a + utf8Len b := by
  induction a with
  | nil => rw [List.nil_append, utf8Len_nil, Nat.zero_add]
  | cons c a ih => rw [List.cons_append, utf8Len_cons, utf8Len_cons, ih]; omega

theorem byteTake_append (a b : List Char) : byteTake (a ++ b) (utf8Len a) = some a := by
  induction a with
  | nil => rw [List.nil_append, utf8Len_nil, byteTake_zero]
  | cons c a ih =>
    have hc := charSize_pos c
    rw [List.cons_append, utf8Len_cons,
      byteTake_cons c (a ++ b) (charSize c + utf8Len a) (by omega),
      if_pos (by omega), Nat.add_sub_cancel_left, ih]
    rfl

theorem byteDrop_append (a b : List Char) : byteDrop (a ++ b) (utf8Len a) = some b := by
  induction a with
  | nil => rw [List.nil_append, utf8Len_nil, byteDrop_zero]
  | cons c a ih =>
    have hc := charSize_pos c
    rw [List.cons_append, utf8Len_cons,
      byteDrop_cons c (a ++ b) (charSize c + utf8Len a) (by omega),
      if_pos (by omega), Nat.add_sub_cancel_left, ih]

theorem byteFind_none_iff (p : Char → Bool) (s : List Char) :
    byteFind p s = none ↔ ∀ c ∈ s, p c = false := by
  induction s with
  | nil => simp [byteFind]
  | cons c s ih =>
    cases hc : p c with
    | true => simp [byteFind, hc]
    | false => simp [byteFind, hc, ih]

theorem byteFind_append_none (p : Char → Bool) (a b : List Char)
    (ha : ∀ c ∈ a, p c = false) :
    byteFind p (a ++ b) = (byteFind p b).map (· + utf8Len a) := by
  induction a with
  | nil => simp [utf8Len]
  | cons c a ih =>
    have hc : p c = false := ha c (by simp)
    rw [List.cons_append]
    show (if p c then some 0 else (byteFind p (a ++ b)).map (· + charSize c)) = _
    rw [hc, if_neg (by simp), ih (fun x hx => ha x (by simp [hx]))]
    cases byteFind p b with
    | none => rfl
    | some n => simp [utf8Len]; omega

theorem byteDrop_length_le (s : List Char) :
    ∀ n t, byteDrop s n = some t → t.length ≤ s.length := by
  induction s with
  | nil =>
    intro n t h
    cases n with
    | zero => cases h; exact Nat.le_refl _
    | succ m => cases h
  | cons c s ih =>
    intro n t h
    cases n with
    | zero => cases h; exact Nat.le_refl _
    | succ m =>
      rw [byteDrop_cons c s (m+1) (by omega)] at h
      by_cases hc : charSize c ≤ m + 1
      · rw [if_pos hc] at h
        exact Nat.le_trans (ih _ _ h) (by simp)
      · rw [if_neg hc] at h; cases h

theorem byteDrop_length_lt (s : List Char) (n : Nat) (t : List Char)
    (hn : 1 ≤ n) (hs : s ≠ []) (h : byteDrop s n = some t) : t.length < s.length := by
  cases s with
  | nil => exact absurd rfl hs
  | cons c s =>
    rw [byteDrop_cons c s n hn] at h
    by_cases hc : charSize c ≤ n
    · rw [if_pos hc] at h
      exact Nat.lt_of_le_of_lt (byteDrop_length_le s _ _ h) (by simp)
    · rw [if_neg hc] at h; cases h

/-! ### The scanner driver: fuel sufficiency and unfolding lemmas -/

theorem cont_len_aux {s s1 s2 : List Char} {i k : Nat}
    (h1 : byteDrop s i = some s1) (h2 : ¬ s1.isEmpty = true)
    (h3 : byteDrop s1 k = some s2) (hk : 1 ≤ k) : s2.length < s.length := by
  have hne : s1 ≠ [] := by
    intro hnil; exact h2 (by rw [hnil]; rfl)
  exact Nat.lt_of_lt_of_le (byteDrop_length_lt s1 k s2 hk hne h3) (byteDrop_length_le s i s1 h1)

theorem envStepO_cont_length {ε : Type} (alnum : Char → Bool)
    (ctx : List Char → Except ε (Option (List Char))) (s emit s2 : List Char)
    (h : envStepO alnum ctx s = .cont emit s2) : s2.length < s.length := by
  simp only [envStepO] at h
  repeat' split at h
  all_goals cases h
  all_goals try (apply cont_len_aux <;> first | assumption | omega)
  all_goals rename_i heq
  all_goals cases heq
  all_goals apply cont_len_aux <;> first | assumption | omega

theorem envStepO_err_ctx {ε : Type} (alnum : Char → Bool)
    (ctx : List Char → Except ε (Option (List Char))) (s : List Char) (e : LookupError ε)
    (h : envStepO alnum ctx s = .err e) : ctx e.name = .error e.cause := by
  simp only [envStepO] at h
  repeat' split at h
  all_goals cases h
  all_goals assumption

theorem mapOk_ok {ε : Type} (f : List Char → List Char) (t : List Char) :
    (RunRes.ok (ε := ε) (.ok t)).mapOk f = .ok (.ok (f t)) := rfl

theorem mapOk_error {ε : Type} (f : List Char → List Char) (e : LookupError ε) :
    (RunRes.ok (ε := ε) (.error e)).mapOk f = .ok (.error e) := rfl

theorem mapOk_panicked {ε : Type} (f : List Char → List Char) :
    (RunRes.panicked (ε := ε)).mapOk f = .panicked := rfl

theorem mapOk_mapOk {ε : Type} (f g : List Char → List Char) (x : RunRes ε) :
    (x.mapOk f).mapOk g = x.mapOk (fun t => g (f t)) := by
  cases x with
  | ok r => cases r <;> rfl
  | outOfFuel => rfl
  | panicked => rfl

theorem mapOk_eq_error_iff {ε : Type} (f : List Char → List Char) (x : RunRes ε)
    (e : LookupError ε) : x.mapOk f = .ok (.error e) ↔ x = .ok (.error e) := by
  cases x with
  | ok r => cases r <;> simp [RunRes.mapOk]
  | outOfFuel => simp [RunRes.mapOk]
  | panicked => simp [RunRes.mapOk]

theorem envLoopF_succ {ε : Type} (alnum : Char → Bool)
    (ctx : List Char → Except ε (Option (List Char))) (f : Nat) (s : List Char) :
    envLoopF alnum ctx (f + 1) s =
      (match envStepO alnum ctx s with
       | .done out => RunRes.ok (.ok out)
       | .panicked => .panicked
       | .err e => .ok (.error e)
       | .cont emit s2 => (envLoopF alnum ctx f s2).mapOk (fun t => emit ++ t)) := rfl

theorem envLoopF_congr {ε : Type} (alnum : Char → Bool)
    (ctx : List Char → Except ε (Option (List Char))) :
    ∀ f1 f2 s, s.length < f1 → s.length < f2 →
      envLoopF alnum ctx f1 s = envLoopF alnum ctx f2 s := by
  intro f1
  induction f1 with
  | zero => intro f2 s h1 _; omega
  | succ g ih =>
    intro f2 s h1 h2
    cases f2 with
    | zero => omega
    | succ g2 =>
      rw [envLoopF_succ, envLoopF_succ]
      cases hstep : envStepO alnum ctx s with
      | done out => rfl
      | panicked => rfl
      | err e => rfl
      | cont emit s2 =>
        have hlt := envStepO_cont_length alnum ctx s emit s2 hstep
        show (envLoopF alnum ctx g s2).mapOk (fun t => emit ++ t) =
             (envLoopF alnum ctx g2 s2).mapOk (fun t => emit ++ t)
        rw [ih g2 s2 (by omega) (by omega)]

theorem envLoopF_eq_envRun {ε : Type} (alnum : Char → Bool)
    (ctx : List Char → Except ε (Option (List Char))) (f : Nat) (s : List Char)
    (h : s.length < f) : envLoopF alnum ctx f s = envRun alnum ctx s :=
  envLoopF_congr alnum ctx f (s.length + 1) s h (by omega)

theorem envRun_done {ε : Type} (alnum : Char → Bool)
    (ctx : List Char → Except ε (Option (List Char))) (s out : List Char)
    (h : envStepO alnum ctx s = .done out) : envRun alnum ctx s = .ok (.ok out) := by
  show envLoopF alnum ctx (s.length + 1) s = _
  rw [envLoopF_succ, h]

theorem envRun_panicked {ε : Type} (alnum : Char → Bool)
    (ctx : List Char → Except ε (Option (List Char))) (s : List Char)
    (h : envStepO alnum ctx s = .panicked) : envRun alnum ctx s = .panicked := by
  show envLoopF alnum ctx (s.length + 1) s = _
  rw [envLoopF_succ, h]

theorem envRun_err {ε : Type} (alnum : Char → Bool)
    (ctx : List Char → Except ε (Option (List Char))) (s : List Char) (e : LookupError ε)
    (h : envStepO alnum ctx s = .err e) : envRun alnum ctx s = .ok (.error e) := by
  show envLoopF alnum ctx (s.length + 1) s = _
  rw [envLoopF_succ, h]

theorem envRun_cont {ε : Type} (alnum : Char → Bool)
    (ctx : List Char → Except ε (Option (List Char))) (s emit s2 : List Char)
    (h : envStepO alnum ctx s = .cont emit s2) :
    envRun alnum ctx s = (envRun alnum ctx s2).mapOk (fun t => emit ++ t) := by
  have hlt := envStepO_cont_length alnum ctx s emit s2 h
  show envLoopF alnum ctx (s.length + 1) s = _
  rw [envLoopF_succ, h]
  show (envLoopF alnum ctx s.length s2).mapOk (fun t => emit ++ t) = _
  rw [envLoopF_eq_envRun alnum ctx s.length s2 hlt]

theorem envRun_errors_come_from_ctx {ε : Type} (alnum : Char → Bool)
    (ctx : List Char → Except ε (Option (List Char))) :
    ∀ f s (e : LookupError ε), envLoopF alnum ctx f s = .ok (.error e) →
      ctx e.name = .error e.cause := by
  intro f
  induction f with
  | zero => intro s e h; cases h
  | succ g ih =>
    intro s e h
    rw [envLoopF_succ] at h
    cases hstep : envStepO alnum ctx s with
    | done out => rw [hstep] at h; cases h
    | panicked => rw [hstep] at h; cases h
    | err e0 =>
      rw [hstep] at h
      cases h
      exact envStepO_err_ctx alnum ctx s _ hstep
    | cont emit s2 =>
      rw [hstep] at h
      rw [show (match StepOut.cont emit s2 with
           | StepOut.done out => RunRes.ok (ε := ε) (.ok out)
           | .panicked => .panicked
           | .err e => .ok (.error e)
           | .cont emit s2 => (envLoopF alnum ctx g s2).mapOk (fun t => emit ++ t)) =
          (envLoopF alnum ctx g s2).mapOk (fun t => emit ++ t) from rfl,
        mapOk_eq_error_iff] at h
      exact ih s2 e h

/-! ### Step lemmas: one scanner iteration on each shape of reference -/

theorem byteFind_cons (p : Char → Bool) (c : Char) (s : List Char) :
    byteFind p (c::s) = if p c then some 0 else (byteFind p s).map (· + charSize c) := rfl

theorem findDollar_cons_dollar (s : List Char) : findDollar ('$' ::s) = 0 := rfl

theorem step_empty {ε : Type} (alnum : Char → Bool)
    (ctx : List Char → Except ε (Option (List Char))) :
    envStepO alnum ctx [] = .done [] := rfl

theorem step_no_dollar {ε : Type} (alnum : Char → Bool)
    (ctx : List Char → Except ε (Option (List Char))) (s : List Char)
    (h : ¬ '$' ∈ s) : envStepO alnum ctx s = .done s := by
  have hN : byteFind (fun c => c == '$') s = none := by
    rw [byteFind_none_iff]
    intro c hc
    simp [beq_eq_false_iff_ne]
    intro hcc
    exact h (hcc ▸ hc)
  have hfd : findDollar s = utf8Len s := by unfold findDollar; rw [hN]; rfl
  have htk : byteTake s (utf8Len s) = some s := by
    have := byteTake_append s []
    rwa [List.append_nil] at this
  have hdr : byteDrop s (utf8Len s) = some [] := by
    have := byteDrop_append s []
    rwa [List.append_nil] at this
  simp [envStepO, hfd, htk, hdr]

theorem step_dollar_end {ε : Type} (alnum : Char → Bool)
    (ctx : List Char → Except ε (Option (List Char))) :
    envStepO alnum ctx ['$'] = .cont ['$'] [] := rfl

theorem step_escape {ε : Type} (alnum : Char → Bool)
    (ctx : List Char → Except ε (Option (List Char))) (rest : List Char)
    (h : alnum '$' = false) :
    envStepO alnum ctx ('$' :: '$' ::rest) = .cont ['$'] rest := by
  simp +decide [envStepO, findDollar, byteFind, byteDrop, byteTake, byteSlice, charSize,
    is_valid_var_name_char, h]

theorem step_lone {ε : Type} (alnum : Char → Bool)
    (ctx : List Char → Except ε (Option (List Char))) (c : Char) (rest : List Char)
    (hb : ¬ c = '\x7b') (hv : is_valid_var_name_char alnum c = false) (hd : ¬ c = '$') :
    envStepO alnum ctx ('$' ::c::rest) = .cont ['$'] (c::rest) := by
  simp +decide [envStepO, findDollar, byteFind, byteDrop, byteTake, byteSlice, charSize,
    hv, hb, hd]

theorem step_braced {ε : Type} (alnum : Char → Bool)
    (ctx : List Char → Except ε (Option (List Char))) (name rest : List Char)
    (hn : ∀ c ∈ name, ¬ c = '\x7d') :
    envStepO alnum ctx ('$' :: '\x7b' ::(name ++ '\x7d' ::rest)) =
      (match ctx name with
       | .error e => .err ⟨name, e⟩
       | .ok (some v) => .cont v rest
       | .ok none => .cont ('$' :: '\x7b' ::(name ++ ['\x7d'])) rest) := by
  have hY : byteFind (fun c => c == '\x7d') (name ++ '\x7d' ::rest) = some (utf8Len name) := by
    rw [byteFind_append_none (fun c => c == '\x7d') name ('\x7d' ::rest)
      (fun c hc => by simp [beq_eq_false_iff_ne]; exact hn c hc)]
    simp [byteFind]
  have hfind : byteFind (fun c => c == '\x7d') ('$' :: '\x7b' ::(name ++ '\x7d' ::rest)) =
      some (utf8Len name + 2) := by
    simp +decide [byteFind_cons, charSize, hY]
  have hnext : byteDrop ('$' :: '\x7b' ::(name ++ '\x7d' ::rest)) 1 =
      some ('\x7b' ::(name ++ '\x7d' ::rest)) := by
    simp +decide [byteDrop, charSize, byteDrop_zero]
  have h2 : byteDrop ('$' :: '\x7b' ::(name ++ '\x7d' ::rest)) 2 = some (name ++ '\x7d' ::rest) := by
    simp +decide [byteDrop, charSize, byteDrop_zero]
  have hcons : name ++ '\x7d' ::rest = (name ++ ['\x7d']) ++ rest := by
    rw [List.append_assoc]; rfl
  have hlen : utf8Len (name ++ ['\x7d']) = utf8Len name + 1 := by
    rw [utf8Len_append]; rfl
  have htake2 : byteTake (name ++ '\x7d' ::rest) (utf8Len name + 2 - 2) = some name := by
    simp only [Nat.add_sub_cancel]
    exact byteTake_append name ('\x7d' ::rest)
  have hslice : byteSlice ('$' :: '\x7b' ::(name ++ '\x7d' ::rest)) 2 (utf8Len name + 2) = some name := by
    unfold byteSlice
    rw [if_pos (by omega), h2]
    simpa using htake2
  have hdropc : byteDrop ('$' :: '\x7b' ::(name ++ '\x7d' ::rest)) (utf8Len name + 2 + 1) =
      some rest := by
    rw [byteDrop_cons _ _ _ (by omega)]
    rw [if_pos (by simp +decide [charSize])]
    rw [show charSize '$' = 1 from rfl]
    rw [byteDrop_cons _ _ _ (by omega)]
    rw [if_pos (by simp +decide [charSize])]
    rw [show charSize '\x7b' = 1 from rfl]
    rw [show utf8Len name + 2 + 1 - 1 - 1 = utf8Len (name ++ ['\x7d']) from by rw [hlen]; omega]
    rw [hcons, byteDrop_append]
  have htakec : byteTake ('$' :: '\x7b' ::(name ++ '\x7d' ::rest)) (utf8Len name + 2 + 1) =
      some ('$' :: '\x7b' ::(name ++ ['\x7d'])) := by
    rw [byteTake_cons _ _ _ (by omega)]
    rw [if_pos (by simp +decide [charSize])]
    rw [show charSize '$' = 1 from rfl]
    rw [byteTake_cons _ _ _ (by omega)]
    rw [if_pos (by simp +decide [charSize])]
    rw [show charSize '\x7b' = 1 from rfl]
    rw [show utf8Len name + 2 + 1 - 1 - 1 = utf8Len (name ++ ['\x7d']) from by rw [hlen]; omega]
    rw [hcons, byteTake_append]
    rfl
  rcases hctx : ctx name with e | v
  · simp +decide [envStepO, findDollar_cons_dollar, byteTake_zero, byteDrop_zero,
      hnext, hfind, hslice, hctx, hdropc, htakec]
  · rcases v with _ | v
    · simp +decide [envStepO, findDollar_cons_dollar, byteTake_zero, byteDrop_zero,
        hnext, hfind, hslice, hctx, hdropc, htakec]
    · simp +decide [envStepO, findDollar_cons_dollar, byteTake_zero, byteDrop_zero,
        hnext, hfind, hslice, hctx, hdropc, htakec]

theorem step_braced_unterminated {ε : Type} (alnum : Char → Bool)
    (ctx : List Char → Except ε (Option (List Char))) (rest : List Char)
    (hr : ¬ '\x7d' ∈ rest) :
    envStepO alnum ctx ('$' :: '\x7b' ::rest) = .cont ['$', '\x7b'] rest := by
  have hfindN : byteFind (fun c => c == '\x7d') ('$' :: '\x7b' ::rest) = none := by
    rw [byteFind_none_iff]
    intro c hc
    simp only [List.mem_cons] at hc
    rcases hc with rfl | rfl | hc
    · decide
    · decide
    · simp [beq_eq_false_iff_ne]
      intro hcc
      exact hr (hcc ▸ hc)
  have hnext : byteDrop ('$' :: '\x7b' ::rest) 1 = some ('\x7b' ::rest) := by
    simp +decide [byteDrop, charSize, byteDrop_zero]
  have h2 : byteDrop ('$' :: '\x7b' ::rest) 2 = some rest := by
    simp +decide [byteDrop, charSize, byteDrop_zero]
  have htk2 : byteTake ('$' :: '\x7b' ::rest) 2 = some ['$', '\x7b'] := by
    simp +decide [byteTake, charSize, byteTake_zero]
  simp +decide [envStepO, findDollar_cons_dollar, byteTake_zero, byteDrop_zero,
    hnext, hfindN, h2, htk2]

theorem step_bare {ε : Type} (alnum : Char → Bool)
    (ctx : List Char → Except ε (Option (List Char))) (h : Char) (t rest : List Char)
    (hvh : is_valid_var_name_char alnum h = true) (hhb : ¬ h = '\x7b')
    (hs1 : charSize h = 1)
    (hvt : ∀ c ∈ t, is_valid_var_name_char alnum c = true)
    (hr : ∀ r, rest.head? = some r → is_valid_var_name_char alnum r = false) :
    envStepO alnum ctx ('$' ::h::(t ++ rest)) =
      (match ctx (h::t) with
       | .error e => .err ⟨h::t, e⟩
       | .ok (some v) => .cont v rest
       | .ok none => .cont ('$' ::h::t) rest) := by
  have hnext : byteDrop ('$' ::h::(t ++ rest)) 1 = some (h::(t ++ rest)) := by
    simp +decide [byteDrop, charSize, byteDrop_zero]
  have h2 : byteDrop ('$' ::h::(t ++ rest)) 2 = some (t ++ rest) := by
    rw [byteDrop_cons _ _ _ (by omega), if_pos (by simp +decide [charSize]),
      show (2 : Nat) - charSize '$' = 1 from rfl,
      byteDrop_cons _ _ _ (by omega), hs1, if_pos (by omega)]
    exact byteDrop_zero _
  have hend : (byteFind (fun c => !(is_valid_var_name_char alnum c)) (t ++ rest)).getD
      (utf8Len ('$' ::h::(t ++ rest)) - 2) = utf8Len t := by
    cases rest with
    | nil =>
      have hfN : byteFind (fun c => !(is_valid_var_name_char alnum c)) (t ++ []) = none := by
        rw [byteFind_none_iff]
        intro c hc
        simp at hc
        simp [hvt c hc]
      rw [hfN]
      simp only [Option.getD_none, utf8Len_cons, utf8Len_append, hs1,
        show charSize '$' = 1 from rfl, utf8Len_nil]
      omega
    | cons r rest' =>
      have hfS : byteFind (fun c => !(is_valid_var_name_char alnum c)) (t ++ r::rest') =
          some (utf8Len t) := by
        rw [byteFind_append_none _ t (r::rest') (fun c hc => by simp [hvt c hc])]
        have : is_valid_var_name_char alnum r = false := hr r rfl
        simp [byteFind, this]
      rw [hfS]
      rfl
  have hsl : byteSlice ('$' ::h::(t ++ rest)) 1 (2 + utf8Len t) = some (h::t) := by
    unfold byteSlice
    rw [if_pos (by omega), hnext]
    show byteTake (h::(t ++ rest)) (2 + utf8Len t - 1) = some (h::t)
    rw [byteTake_cons _ _ _ (by omega), hs1, if_pos (by omega),
      show 2 + utf8Len t - 1 - 1 = utf8Len t from by omega, byteTake_append]
    rfl
  have hdropc : byteDrop ('$' ::h::(t ++ rest)) (2 + utf8Len t) = some rest := by
    rw [byteDrop_cons _ _ _ (by omega), if_pos (by simp +decide [charSize] <;> omega),
      show charSize '$' = 1 from rfl,
      byteDrop_cons _ _ _ (by omega), hs1, if_pos (by omega),
      show 2 + utf8Len t - 1 - 1 = utf8Len t from by omega, byteDrop_append]
  have htakec : byteTake ('$' ::h::(t ++ rest)) (2 + utf8Len t) = some ('$' ::h::t) := by
    rw [byteTake_cons _ _ _ (by omega), if_pos (by simp +decide [charSize] <;> omega),
      show charSize '$' = 1 from rfl,
      byteTake_cons _ _ _ (by omega), hs1, if_pos (by omega),
      show 2 + utf8Len t - 1 - 1 = utf8Len t from by omega, byteTake_append]
    rfl
  rcases hctx : ctx (h::t) with e | v
  · simp +decide [envStepO, findDollar_cons_dollar, byteTake_zero, byteDrop_zero,
      hnext, hhb, hvh, h2, hend, hsl, hctx, hdropc, htakec]
  · rcases v with _ | v
    · simp +decide [envStepO, findDollar_cons_dollar, byteTake_zero, byteDrop_zero,
        hnext, hhb, hvh, h2, hend, hsl, hctx, hdropc, htakec]
    · simp +decide [envStepO, findDollar_cons_dollar, byteTake_zero, byteDrop_zero,
        hnext, hhb, hvh, h2, hend, hsl, hctx, hdropc, htakec]

theorem envStepO_prepend {ε : Type} (alnum : Char → Bool)
    (ctx : List Char → Except ε (Option (List Char))) (pre s : List Char)
    (hpre : ∀ c ∈ pre, ¬ c = '$') (hs : s.head? = some '$') :
    envStepO alnum ctx (pre ++ s) = (envStepO alnum ctx s).prepend pre := by
  obtain ⟨s', rfl⟩ : ∃ s', s = '$' ::s' := by
    cases s with
    | nil => cases hs
    | cons c s' =>
      simp only [List.head?_cons, Option.some.injEq] at hs
      exact ⟨s', by rw [hs]⟩
  have hfd : findDollar (pre ++ '$' ::s') = utf8Len pre := by
    unfold findDollar
    rw [byteFind_append_none _ pre ('$' ::s')
      (fun c hc => by simp [beq_eq_false_iff_ne]; exact hpre c hc), byteFind_cons]
    simp +decide
  simp only [envStepO, hfd, byteTake_append, byteDrop_append, findDollar_cons_dollar,
    byteTake_zero, byteDrop_zero, List.isEmpty_cons, Bool.false_eq_true, if_false]
  repeat' split
  all_goals simp [StepOut.prepend]

/-! ### Run-level lemmas -/

theorem mapOk_congr {ε : Type} (f g : List Char → List Char) (x : RunRes ε)
    (h : ∀ t, f t = g t) : x.mapOk f = x.mapOk g := by
  cases x with
  | ok r => cases r <;> simp [RunRes.mapOk, h]
  | outOfFuel => rfl
  | panicked => rfl

theorem envRun_prepend {ε : Type} (alnum : Char → Bool)
    (ctx : List Char → Except ε (Option (List Char))) (pre s : List Char)
    (hpre : ∀ c ∈ pre, ¬ c = '$') (hs : s.head? = some '$') :
    envRun alnum ctx (pre ++ s) = (envRun alnum ctx s).mapOk (fun t => pre ++ t) := by
  have hp := envStepO_prepend alnum ctx pre s hpre hs
  cases hstep : envStepO alnum ctx s with
  | done out =>
    rw [envRun_done alnum ctx _ _ (by rw [hp, hstep]; rfl), envRun_done alnum ctx _ _ hstep]
    rfl
  | panicked =>
    rw [envRun_panicked alnum ctx _ (by rw [hp, hstep]; rfl), envRun_panicked alnum ctx _ hstep]
    rfl
  | err e =>
    rw [envRun_err alnum ctx _ _ (by rw [hp, hstep]; rfl), envRun_err alnum ctx _ _ hstep]
    rfl
  | cont emit s2 =>
    rw [envRun_cont alnum ctx _ _ _ (by rw [hp, hstep]; rfl), envRun_cont alnum ctx _ _ _ hstep,
      mapOk_mapOk]
    exact mapOk_congr _ _ _ (fun t => by rw [List.append_assoc])

theorem envRun_no_dollar {ε : Type} (alnum : Char → Bool)
    (ctx : List Char → Except ε (Option (List Char))) (s : List Char)
    (h : ¬ '$' ∈ s) : envRun alnum ctx s = .ok (.ok s) :=
  envRun_done alnum ctx s s (step_no_dollar alnum ctx s h)

/-! ### Top-level lemmas for env, tilde and full -/

theorem env_no_dollar {ε : Type} (alnum : Char → Bool)
    (ctx : List Char → Except ε (Option (List Char))) (input : List Char)
    (h : ¬ '$' ∈ input) : env_with_context alnum input ctx = .ok (.ok (.borrowed input)) := by
  unfold env_with_context
  rw [(byteFind_none_iff _ _).mpr (fun c hc => by
    simp [beq_eq_false_iff_ne]; intro hcc; exact h (hcc ▸ hc))]

theorem env_of_mem_dollar {ε : Type} (alnum : Char → Bool)
    (ctx : List Char → Except ε (Option (List Char))) (input : List Char)
    (h : '$' ∈ input) :
    env_with_context alnum input ctx =
      (match envRun alnum ctx input with
       | .outOfFuel => .outOfFuel
       | .panicked => .panicked
       | .ok (.error e) => .ok (.error e)
       | .ok (.ok t) => .ok (.ok (.owned t))) := by
  unfold env_with_context
  cases hb : byteFind (fun c => c == '$') input with
  | some n => rfl
  | none =>
    rw [byteFind_none_iff] at hb
    have := hb '$' h
    simp at this

theorem env_borrowed_inv {ε : Type} (alnum : Char → Bool)
    (ctx : List Char → Except ε (Option (List Char))) (input s : List Char)
    (h : env_with_context alnum input ctx = .ok (.ok (.borrowed s))) :
    s = input ∧ ¬ '$' ∈ input := by
  by_cases hm : '$' ∈ input
  · rw [env_of_mem_dollar alnum ctx input hm] at h
    cases hr : envRun alnum ctx input with
    | outOfFuel => rw [hr] at h; cases h
    | panicked => rw [hr] at h; cases h
    | ok r =>
      rw [hr] at h
      cases r with
      | error e => cases h
      | ok t => cases h
  · rw [env_no_dollar alnum ctx input hm] at h
    cases h
    exact ⟨rfl, hm⟩

theorem env_err_inv {ε : Type} (alnum : Char → Bool)
    (ctx : List Char → Except ε (Option (List Char))) (input : List Char) (e : LookupError ε)
    (h : env_with_context alnum input ctx = .ok (.error e)) :
    envRun alnum ctx input = .ok (.error e) := by
  by_cases hm : '$' ∈ input
  · rw [env_of_mem_dollar alnum ctx input hm] at h
    cases hr : envRun alnum ctx input with
    | outOfFuel => rw [hr] at h; cases h
    | panicked => rw [hr] at h; cases h
    | ok r =>
      rw [hr] at h
      cases r with
      | error e2 => cases h; rfl
      | ok t => cases h
  · rw [env_no_dollar alnum ctx input hm] at h
    cases h

theorem env_owned_inv {ε : Type} (alnum : Char → Bool)
    (ctx : List Char → Except ε (Option (List Char))) (input s : List Char)
    (h : env_with_context alnum input ctx = .ok (.ok (.owned s))) :
    envRun alnum ctx input = .ok (.ok s) ∧ '$' ∈ input := by
  by_cases hm : '$' ∈ input
  · rw [env_of_mem_dollar alnum ctx input hm] at h
    cases hr : envRun alnum ctx input with
    | outOfFuel => rw [hr] at h; cases h
    | panicked => rw [hr] at h; cases h
    | ok r =>
      rw [hr] at h
      cases r with
      | error e2 => cases h
      | ok t => cases h; exact ⟨rfl, hm⟩
  · rw [env_no_dollar alnum ctx input hm] at h
    cases h

theorem tilde_not_eligible (s : List Char) (hd : Option (List Char))
    (h : tildeEligible s = false) : tilde_with_context s hd = .borrowed s := by
  cases s with
  | nil => rfl
  | cons c rest =>
    cases hc : (c == '~') with
    | false => simp [tilde_with_context, hc]
    | true =>
      simp only [tildeEligible, hc, Bool.true_and] at h
      simp [tilde_with_context, hc, h]

theorem tilde_no_home (s : List Char) :
    tilde_with_context s none = .borrowed s := by
  cases s with
  | nil => rfl
  | cons c rest =>
    cases hc : (c == '~') with
    | false => simp [tilde_with_context, hc]
    | true =>
      cases he : (rest.isEmpty || rest.head? == some '/') with
      | false => simp [tilde_with_context, hc, he]
      | true => simp [tilde_with_context, hc, he]

theorem tilde_expands (rest : List Char) (hd : List Char)
    (h : rest = [] ∨ rest.head? = some '/') :
    tilde_with_context ('~' ::rest) (some hd) = .owned (hd ++ rest) := by
  have he : (rest.isEmpty || rest.head? == some '/') = true := by
    rcases h with rfl | h
    · rfl
    · simp [h]
  simp [tilde_with_context, he]

theorem tilde_borrowed_self (s : List Char) (hd : Option (List Char)) :
    (tilde_with_context s hd).isBorrowed = true → tilde_with_context s hd = .borrowed s := by
  intro h
  cases s with
  | nil => rfl
  | cons c rest =>
    cases hc : (c == '~') with
    | false => simp [tilde_with_context, hc]
    | true =>
      cases he : (rest.isEmpty || rest.head? == some '/') with
      | false => simp [tilde_with_context, hc, he]
      | true =>
        cases hd with
        | none => simp [tilde_with_context, hc, he]
        | some hdv =>
          simp [tilde_with_context, hc, he, Cow.isBorrowed] at h

theorem tilde_isBorrowed_iff (s : List Char) (hd : Option (List Char)) :
    (tilde_with_context s hd).isBorrowed = true ↔
      ¬ (tildeEligible s = true ∧ hd ≠ none) := by
  cases s with
  | nil => simp [tilde_with_context, tildeEligible, Cow.isBorrowed]
  | cons c rest =>
    cases hc : (c == '~') with
    | false => simp [tilde_with_context, tildeEligible, hc, Cow.isBorrowed]
    | true =>
      cases he : (rest.isEmpty || rest.head? == some '/') with
      | false => simp [tilde_with_context, tildeEligible, hc, he, Cow.isBorrowed]
      | true =>
        cases hd with
        | none => simp [tilde_with_context, tildeEligible, hc, he, Cow.isBorrowed]
        | some hdv => simp [tilde_with_context, tildeEligible, hc, he, Cow.isBorrowed]

theorem full_env_borrowed {ε : Type} (alnum : Char → Bool) (input : List Char)
    (hd : Option (List Char)) (ctx : List Char → Except ε (Option (List Char))) (s : List Char)
    (h : env_with_context alnum input ctx = .ok (.ok (.borrowed s))) :
    full_with_context alnum input hd ctx = .ok (.ok (tilde_with_context s hd)) := by
  unfold full_with_context
  rw [h]

theorem full_env_owned {ε : Type} (alnum : Char → Bool) (input : List Char)
    (hd : Option (List Char)) (ctx : List Char → Except ε (Option (List Char))) (s : List Char)
    (h : env_with_context alnum input ctx = .ok (.ok (.owned s))) :
    full_with_context alnum input hd ctx = .ok (.ok (
      if !(startsWithTilde input) && startsWithTilde s then .owned s
      else
        match tilde_with_context s hd with
        | .owned s2 => .owned s2
        | .borrowed _ => .owned s)) := by
  unfold full_with_context
  rw [h]

theorem full_env_err {ε : Type} (alnum : Char → Bool) (input : List Char)
    (hd : Option (List Char)) (ctx : List Char → Except ε (Option (List Char)))
    (e : LookupError ε) (h : env_with_context alnum input ctx = .ok (.error e)) :
    full_with_context alnum input hd ctx = .ok (.error e) := by
  unfold full_with_context
  rw [h]

theorem startsWithTilde_false_not_eligible (s : List Char)
    (h : startsWithTilde s = false) : tildeEligible s = false := by
  cases s with
  | nil => rfl
  | cons c rest =>
    simp only [startsWithTilde, List.head?_cons] at h
    simp only [tildeEligible]
    simp at h
    simp [h]

/-! ### The claims -/

/-- Claim C5: the tilde expander modifies the input only when the first
character is `~` and it is the whole input or followed by `/`; with an
available home directory the result is the home path concatenated with the
remainder, and in every other case (ineligible shape or unavailable home)
the input is returned unchanged, never an error. -/
theorem c5_tilde_expander_rules :
    (∀ (s : List Char) (hd : Option (List Char)), tildeEligible s = false →
        tilde_with_context s hd = .borrowed s)
  ∧ (∀ (s : List Char), tilde_with_context s none = .borrowed s)
  ∧ (∀ (hd rest : List Char), (rest = [] ∨ rest.head? = some '/') →
        tilde_with_context ('~' ::rest) (some hd) = .owned (hd ++ rest)) :=
  ⟨tilde_not_eligible, tilde_no_home, fun hd rest h => tilde_expands rest hd h⟩

/-- Witness for C5 at a concrete input. -/
theorem c5_tilde_expander_rules_witness :
    tilde_with_context ('~' ::"/x".data) (some "/home/u".data) = .owned "/home/u/x".data :=
  c5_tilde_expander_rules.2.2 "/home/u".data "/x".data (Or.inr rfl)

/-- Claim C10: inputs with no `$` and no eligible leading tilde expand to the
borrowed input itself, with no error, under both operations; hence expanding
such an input twice yields the identical string. -/
theorem c10_noop_inputs {ε : Type} (alnum : Char → Bool) (hd : Option (List Char))
    (ctx : List Char → Except ε (Option (List Char))) (input : List Char)
    (h1 : ¬ '$' ∈ input) (h2 : tildeEligible input = false) :
    env_with_context alnum input ctx = .ok (.ok (.borrowed input))
  ∧ full_with_context alnum input hd ctx = .ok (.ok (.borrowed input))
  ∧ (Cow.borrowed input).str = input := by
  have he := env_no_dollar alnum ctx input h1
  refine ⟨he, ?_, rfl⟩
  rw [full_env_borrowed alnum input hd ctx input he, tilde_not_eligible input hd h2]

/-- Witness for C10 at a concrete input. -/
theorem c10_noop_inputs_witness :
    full_with_context asciiAlnum "some/path".data none ctxNone =
      .ok (.ok (.borrowed "some/path".data)) :=
  (c10_noop_inputs asciiAlnum none ctxNone "some/path".data (by decide) (by decide)).2.1

/-- Claim C4 (refuted, code bug): with the real `is_alphanumeric` oracle,
which classifies the two-byte Cyrillic letter `ф` as alphanumeric, the
scanner slices the input `$ф` at byte offset 2 — the middle of `ф` — and
panics, so the expansion functions do not return a value for every valid
UTF-8 input. -/
theorem c4_scanner_panics_on_multibyte {ε : Type} (alnum : Char → Bool)
    (ctx : List Char → Except ε (Option (List Char))) (hd : Option (List Char))
    (hphi : alnum 'ф' = true) :
    env_with_context alnum ['$', 'ф'] ctx = .panicked
  ∧ full_with_context alnum ['$', 'ф'] hd ctx = .panicked := by
  have hstep : envStepO alnum ctx ['$', 'ф'] = .panicked := by
    simp +decide [envStepO, findDollar, byteFind, byteDrop, byteTake, byteSlice, charSize,
      is_valid_var_name_char, hphi]
  have hrun : envRun alnum ctx ['$', 'ф'] = .panicked := envRun_panicked alnum ctx _ hstep
  have henv : env_with_context alnum ['$', 'ф'] ctx = .panicked := by
    rw [env_of_mem_dollar alnum ctx _ (by decide), hrun]
  refine ⟨henv, ?_⟩
  unfold full_with_context
  rw [henv]

/-- Witness for C4 with a concrete oracle agreeing with Rust's
`char::is_alphanumeric` on the characters involved. -/
theorem c4_scanner_panics_on_multibyte_witness :
    env_with_context alnumPhi ['$', 'ф'] ctxNone = .panicked :=
  (c4_scanner_panics_on_multibyte alnumPhi ctxNone none (by decide)).1

/-- Counterexample to claim C3: on input `$` with a lookup that resolves
nothing, the scanner returns an owned string whose text equals the input —
the result is not borrowed even though nothing changed the text. -/
theorem c3_borrowed_iff_counterexample :
    env_with_context asciiAlnum "$".data ctxNone = .ok (.ok (.owned "$".data))
  ∧ (Cow.owned "$".data).str = "$".data
  ∧ ¬ (Cow.owned "$".data = Cow.borrowed "$".data) :=
  ⟨rfl, rfl, by decide⟩

/-- Claim C3 as amended: the result of `env_with_context` is borrowed exactly
when the input contains no `$` (in which case it is the borrowed input
itself), and the result of `full_with_context` is borrowed exactly when
additionally no tilde expansion occurred (no eligible leading `~` with an
available home directory). -/
theorem c3_borrowed_iff_amended {ε : Type} (alnum : Char → Bool)
    (ctx : List Char → Except ε (Option (List Char))) (hd : Option (List Char))
    (input : List Char) :
    (∀ c : Cow, env_with_context alnum input ctx = .ok (.ok c) →
        ((c = .borrowed input ↔ ¬ '$' ∈ input) ∧ (c.isBorrowed = true → c = .borrowed input)))
  ∧ (∀ c : Cow, full_with_context alnum input hd ctx = .ok (.ok c) →
        (c.isBorrowed = true ↔ (¬ '$' ∈ input ∧ ¬ (tildeEligible input = true ∧ hd ≠ none)))) := by
  constructor
  · intro c h
    constructor
    · constructor
      · intro hc
        rw [hc] at h
        exact (env_borrowed_inv alnum ctx input input h).2
      · intro hnd
        have := env_no_dollar alnum ctx input hnd
        rw [this] at h
        cases h
        rfl
    · intro hb
      cases c with
      | borrowed s =>
        have := (env_borrowed_inv alnum ctx input s h).1
        rw [this]
      | owned s => cases hb
  · intro c h
    cases henv : env_with_context alnum input ctx with
    | outOfFuel =>
      unfold full_with_context at h
      rw [henv] at h
      cases h
    | panicked =>
      unfold full_with_context at h
      rw [henv] at h
      cases h
    | ok r =>
      cases r with
      | error e =>
        unfold full_with_context at h
        rw [henv] at h
        cases h
      | ok r0 =>
        cases r0 with
        | borrowed s =>
          obtain ⟨hseq, hnd⟩ := env_borrowed_inv alnum ctx input s henv
          rw [full_env_borrowed alnum input hd ctx s henv] at h
          cases h
          rw [hseq, tilde_isBorrowed_iff]
          simp [hnd]
        | owned s =>
          obtain ⟨-, hmem⟩ := env_owned_inv alnum ctx input s henv
          rw [full_env_owned alnum input hd ctx s henv] at h
          cases h
          have hnb : (if !(startsWithTilde input) && startsWithTilde s then Cow.owned s
              else
                match tilde_with_context s hd with
                | .owned s2 => .owned s2
                | .borrowed _ => .owned s).isBorrowed = false := by
            cases hcond : (!(startsWithTilde input) && startsWithTilde s) with
            | true => simp [hcond, Cow.isBorrowed]
            | false =>
              cases ht : tilde_with_context s hd with
              | owned s2 => simp [hcond, ht, Cow.isBorrowed]
              | borrowed b => simp [hcond, ht, Cow.isBorrowed]
          rw [hnb]
          simp [hmem]

/-- Witness for the amended C3: a full expansion that did expand a tilde is
not a borrowed result. -/
theorem c3_borrowed_iff_amended_witness :
    ¬ ((Cow.owned "/h".data).isBorrowed = true) := by
  intro hb
  have := (((c3_borrowed_iff_amended asciiAlnum ctxNone (some "/h".data) "~".data).2
    (Cow.owned "/h".data)) rfl).mp hb
  exact this.2 (by exact ⟨by decide, by simp⟩)

/-- Claim C2: a lookup failure aborts everything: the error `(name, cause)`
returned by `env_with_context` is produced exactly by a failing lookup and is
propagated unchanged by `full_with_context` (which then performs no tilde
expansion and carries no output), an error surfaces from the composer only if
the scanner produced it, and on a string with two failing references the
error of the leftmost one is returned. -/
theorem c2_lookup_failure_fail_fast {ε : Type} (alnum : Char → Bool)
    (ctx : List Char → Except ε (Option (List Char))) (hd : Option (List Char))
    (input : List Char) :
    (∀ e : LookupError ε, env_with_context alnum input ctx = .ok (.error e) →
        full_with_context alnum input hd ctx = .ok (.error e) ∧ ctx e.name = .error e.cause)
  ∧ (∀ e : LookupError ε, full_with_context alnum input hd ctx = .ok (.error e) →
        env_with_context alnum input ctx = .ok (.error e))
  ∧ (∀ c1 c2 : ε, env_with_context asciiAlnum "$X$Y".data (ctxXY c1 c2) =
        .ok (.error ⟨"X".data, c1⟩)) := by
  refine ⟨?_, ?_, ?_⟩
  · intro e h
    refine ⟨full_env_err alnum input hd ctx e h, ?_⟩
    have hr := env_err_inv alnum ctx input e h
    exact envRun_errors_come_from_ctx alnum ctx (input.length + 1) input e hr
  · intro e h
    cases henv : env_with_context alnum input ctx with
    | outOfFuel =>
      unfold full_with_context at h
      rw [henv] at h
      cases h
    | panicked =>
      unfold full_with_context at h
      rw [henv] at h
      cases h
    | ok r =>
      cases r with
      | error e2 =>
        rw [full_env_err alnum input hd ctx e2 henv] at h
        injection h with h1
        injection h1 with h2
        rw [h2]

      | ok r0 =>
        cases r0 with
        | borrowed s =>
          rw [full_env_borrowed alnum input hd ctx s henv] at h
          cases h
        | owned s =>
          rw [full_env_owned alnum input hd ctx s henv] at h
          cases h
  · intro c1 c2
    have hctx2 : ctxXY c1 c2 ('X' ::([] : List Char)) = .error c1 := rfl
    have hstep : envStepO asciiAlnum (ctxXY c1 c2) "$X$Y".data = .err ⟨"X".data, c1⟩ := by
      show envStepO asciiAlnum (ctxXY c1 c2) ('$' :: 'X' ::([] ++ "$Y".data)) = _
      rw [step_bare asciiAlnum (ctxXY c1 c2) 'X' [] "$Y".data (by decide) (by decide) (by decide)
        (by intro c hc; cases hc)
        (by intro r hr; cases hr; decide), hctx2]
    have hrun := envRun_err asciiAlnum (ctxXY c1 c2) _ _ hstep
    rw [env_of_mem_dollar asciiAlnum (ctxXY c1 c2) _ (by decide), hrun]

/-- Witness for C2: the composed expansion propagates a concrete failure. -/
theorem c2_lookup_failure_fail_fast_witness :
    full_with_context asciiAlnum "$X$Y".data none (ctxXY () ()) =
      .ok (.error ⟨"X".data, ()⟩) :=
  (((c2_lookup_failure_fail_fast asciiAlnum (ctxXY () ()) none "$X$Y".data).1
    ⟨"X".data, ()⟩) ((c2_lookup_failure_fail_fast asciiAlnum (ctxXY () ()) none
      "$X$Y".data).2.2 () ())).1

/-- Claim C1: the composer skips tilde expansion exactly when the
post-substitution text gained a leading `~` that the original input did not
have; in every other case it returns the tilde expansion of the
post-substitution text; consequently a tilde is only ever expanded when the
original input literally started with `~`, and `~$VAR` with `$VAR` resolving
to a `/`-initial string expands the home directory against the substituted
remainder. -/
theorem c1_full_composition_tilde_policy {ε : Type} (alnum : Char → Bool)
    (ctx : List Char → Except ε (Option (List Char))) (hd : Option (List Char))
    (input : List Char) :
    (∀ s : List Char, env_with_context alnum input ctx = .ok (.ok (.owned s)) →
        startsWithTilde input = false → startsWithTilde s = true →
        full_with_context alnum input hd ctx = .ok (.ok (.owned s)))
  ∧ (∀ s : List Char, env_with_context alnum input ctx = .ok (.ok (.owned s)) →
        (startsWithTilde input = true ∨ startsWithTilde s = false) →
        full_with_context alnum input hd ctx =
          .ok (.ok (.owned ((tilde_with_context s hd).str))))
  ∧ (∀ s : List Char, env_with_context alnum input ctx = .ok (.ok (.borrowed s)) →
        full_with_context alnum input hd ctx = .ok (.ok (tilde_with_context s hd)))
  ∧ (startsWithTilde input = false → ∀ c : Cow,
        env_with_context alnum input ctx = .ok (.ok c) →
        ∃ c2 : Cow, full_with_context alnum input hd ctx = .ok (.ok c2) ∧ c2.str = c.str)
  ∧ (∀ (v hdv : List Char),
        is_valid_var_name_char alnum 'V' = true → is_valid_var_name_char alnum 'A' = true →
        is_valid_var_name_char alnum 'R' = true →
        ctx "VAR".data = .ok (some v) → v.head? = some '/' →
        full_with_context alnum "~$VAR".data (some hdv) ctx =
          .ok (.ok (.owned (hdv ++ v)))) := by
  refine ⟨?_, ?_, ?_, ?_, ?_⟩
  · intro s h hin hs
    rw [full_env_owned alnum input hd ctx s h]
    simp [hin, hs]
  · intro s h hcond
    rw [full_env_owned alnum input hd ctx s h]
    have hc : (!(startsWithTilde input) && startsWithTilde s) = false := by
      rcases hcond with hc | hc <;> simp [hc]
    rw [hc]
    cases ht : tilde_with_context s hd with
    | owned s2 => simp [ht, Cow.str]
    | borrowed b =>
      have hb : tilde_with_context s hd = .borrowed s :=
        tilde_borrowed_self s hd (by rw [ht]; rfl)
      rw [hb] at ht
      cases ht
      simp [hb, Cow.str]
  · intro s h
    exact full_env_borrowed alnum input hd ctx s h
  · intro hin c h
    cases c with
    | borrowed s =>
      obtain ⟨hseq, hnd⟩ := env_borrowed_inv alnum ctx input s h
      refine ⟨.borrowed s, ?_, rfl⟩
      rw [full_env_borrowed alnum input hd ctx s h,
        tilde_not_eligible s hd (by rw [hseq]; exact startsWithTilde_false_not_eligible input hin)]
    | owned s =>
      cases hst : startsWithTilde s with
      | true =>
        refine ⟨.owned s, ?_, rfl⟩
        rw [full_env_owned alnum input hd ctx s h]
        simp [hin, hst]
      | false =>
        refine ⟨.owned s, ?_, rfl⟩
        rw [full_env_owned alnum input hd ctx s h]
        simp only [hst, Bool.and_false, Bool.false_eq_true, if_false]
        rw [tilde_not_eligible s hd (startsWithTilde_false_not_eligible s hst)]
  · intro v hdv hV hA hR hctx hv
    have hctx2 : ctx ('V' ::("AR".data ++ ([] : List Char))) = .ok (some v) := by
      show ctx "VAR".data = _
      exact hctx
    have hstep : envStepO alnum ctx "$VAR".data = .cont v [] := by
      show envStepO alnum ctx ('$' :: 'V' ::("AR".data ++ [])) = _
      rw [step_bare alnum ctx 'V' "AR".data [] hV (by decide) (by decide)
        (by intro c hc
            simp only [List.mem_cons] at hc
            rcases hc with rfl | hc
            · exact hA
            · simp at hc
              rw [hc]
              exact hR)
        (by intro r hr; cases hr)]
      rw [show ctx ('V' ::"AR".data) = .ok (some v) from hctx2]
    have hrun : envRun alnum ctx "$VAR".data = .ok (.ok v) := by
      rw [envRun_cont alnum ctx _ _ _ hstep,
        show envRun alnum ctx ([] : List Char) = .ok (.ok []) from rfl]
      show RunRes.ok (.ok (v ++ [])) = _
      rw [List.append_nil]
    have hrunF : envRun alnum ctx "~$VAR".data = .ok (.ok ('~' ::v)) := by
      show envRun alnum ctx (['~'] ++ "$VAR".data) = _
      rw [envRun_prepend alnum ctx ['~'] "$VAR".data (by decide) rfl, hrun]
      rfl
    have henv : env_with_context alnum "~$VAR".data ctx = .ok (.ok (.owned ('~' ::v))) := by
      rw [env_of_mem_dollar alnum ctx _ (by decide), hrunF]
    rw [full_env_owned alnum "~$VAR".data (some hdv) ctx ('~' ::v) henv]
    have hc : (!(startsWithTilde "~$VAR".data) && startsWithTilde ('~' ::v)) = false := by
      simp [startsWithTilde]
    rw [hc]
    rw [if_neg (by simp)]
    rw [tilde_expands v hdv (Or.inr hv)]

/-- Witness for C1 at a concrete `~$VAR` input. -/
theorem c1_full_composition_tilde_policy_witness :
    full_with_context asciiAlnum "~$VAR".data (some "/home".data) ctxSlashVar =
      .ok (.ok (.owned "/home/val".data)) :=
  (c1_full_composition_tilde_policy asciiAlnum ctxSlashVar (some "/home".data)
    "~$VAR".data).2.2.2.2 "/val".data "/home".data (by decide) (by decide) (by decide) rfl rfl

/-- Claim C6: an unresolved variable reference is copied into the output
verbatim — `$NAME` stays `$NAME` and `$\x7bNAME\x7d` stays `$\x7bNAME\x7d`,
braces included — and scanning resumes after the span; unknown names are
never replaced by the empty string. -/
theorem c6_unresolved_passthrough {ε : Type} (alnum : Char → Bool)
    (ctx : List Char → Except ε (Option (List Char))) :
    (∀ (pre : List Char) (h : Char) (t rest : List Char), (∀ c ∈ pre, ¬ c = '$') →
        is_valid_var_name_char alnum h = true → ¬ h = '\x7b' → charSize h = 1 →
        (∀ c ∈ t, is_valid_var_name_char alnum c = true) →
        (∀ r, rest.head? = some r → is_valid_var_name_char alnum r = false) →
        ctx (h::t) = .ok none →
        envRun alnum ctx (pre ++ '$' ::h::(t ++ rest)) =
          (envRun alnum ctx rest).mapOk (fun out => pre ++ '$' ::h::(t ++ out)))
  ∧ (∀ (pre name rest : List Char), (∀ c ∈ pre, ¬ c = '$') →
        (∀ c ∈ name, ¬ c = '\x7d') → ctx name = .ok none →
        envRun alnum ctx (pre ++ '$' :: '\x7b' ::(name ++ '\x7d' ::rest)) =
          (envRun alnum ctx rest).mapOk (fun out => pre ++ '$' :: '\x7b' ::(name ++ '\x7d' ::out)))
  ∧ (∀ (h : Char) (t : List Char),
        is_valid_var_name_char alnum h = true → ¬ h = '\x7b' → charSize h = 1 →
        (∀ c ∈ t, is_valid_var_name_char alnum c = true) → ctx (h::t) = .ok none →
        env_with_context alnum ('$' ::h::t) ctx = .ok (.ok (.owned ('$' ::h::t))))
  ∧ (∀ name : List Char, (∀ c ∈ name, ¬ c = '\x7d') → ctx name = .ok none →
        env_with_context alnum ('$' :: '\x7b' ::(name ++ ['\x7d'])) ctx =
          .ok (.ok (.owned ('$' :: '\x7b' ::(name ++ ['\x7d']))))) := by
  refine ⟨?_, ?_, ?_, ?_⟩
  · intro pre h t rest hpre hvh hhb hs1 hvt hr hctx
    rw [envRun_prepend alnum ctx pre ('$' ::h::(t ++ rest)) hpre rfl]
    have hstep : envStepO alnum ctx ('$' ::h::(t ++ rest)) = .cont ('$' ::h::t) rest := by
      rw [step_bare alnum ctx h t rest hvh hhb hs1 hvt hr, hctx]
    rw [envRun_cont alnum ctx _ _ _ hstep, mapOk_mapOk]
    rfl
  · intro pre name rest hpre hn hctx
    rw [envRun_prepend alnum ctx pre ('$' :: '\x7b' ::(name ++ '\x7d' ::rest)) hpre rfl]
    have hstep : envStepO alnum ctx ('$' :: '\x7b' ::(name ++ '\x7d' ::rest)) =
        .cont ('$' :: '\x7b' ::(name ++ ['\x7d'])) rest := by
      rw [step_braced alnum ctx name rest hn, hctx]
    rw [envRun_cont alnum ctx _ _ _ hstep, mapOk_mapOk]
    exact mapOk_congr _ _ _ (fun t0 => by simp)
  · intro h t hvh hhb hs1 hvt hctx
    have hstep0 := step_bare alnum ctx h t [] hvh hhb hs1 hvt (fun r hr => by cases hr)
    rw [List.append_nil, hctx] at hstep0
    have hstep : envStepO alnum ctx ('$' ::h::t) = .cont ('$' ::h::t) [] := hstep0
    have hrun : envRun alnum ctx ('$' ::h::t) = .ok (.ok ('$' ::h::t)) := by
      rw [envRun_cont alnum ctx _ _ _ hstep,
        show envRun alnum ctx ([] : List Char) = .ok (.ok []) from rfl]
      show RunRes.ok (.ok (('$' ::h::t) ++ [])) = _
      rw [List.append_nil]
    rw [env_of_mem_dollar alnum ctx _ (List.mem_cons_self _ _), hrun]
  · intro name hn hctx
    have hstep0 := step_braced alnum ctx name [] hn
    rw [hctx] at hstep0
    have hstep : envStepO alnum ctx ('$' :: '\x7b' ::(name ++ ['\x7d'])) =
        .cont ('$' :: '\x7b' ::(name ++ ['\x7d'])) [] := hstep0
    have hrun : envRun alnum ctx ('$' :: '\x7b' ::(name ++ ['\x7d'])) =
        .ok (.ok ('$' :: '\x7b' ::(name ++ ['\x7d']))) := by
      rw [envRun_cont alnum ctx _ _ _ hstep,
        show envRun alnum ctx ([] : List Char) = .ok (.ok []) from rfl]
      show RunRes.ok (.ok (('$' :: '\x7b' ::(name ++ ['\x7d'])) ++ [])) = _
      rw [List.append_nil]
    rw [env_of_mem_dollar alnum ctx _ (List.mem_cons_self _ _), hrun]

/-- Witness for C6: an unresolved `$VAR` passes through verbatim. -/
theorem c6_unresolved_passthrough_witness :
    env_with_context asciiAlnum "$VAR".data ctxNone = .ok (.ok (.owned "$VAR".data)) :=
  (c6_unresolved_passthrough asciiAlnum ctxNone).2.2.1 'V' "AR".data
    (by decide) (by decide) (by decide) (by decide) rfl

/-- Claim C7: malformed reference syntax is never an error: an unterminated
`$\x7b` is copied literally with scanning resuming right after the brace and
no lookup performed (the result is the same for every lookup function); a
stray `$` before a non-name character, or at the end of the input, is copied
literally as well. -/
theorem c7_malformed_passthrough {ε : Type} (alnum : Char → Bool)
    (ctx : List Char → Except ε (Option (List Char))) :
    (∀ (pre rest : List Char), (∀ c ∈ pre, ¬ c = '$') → ¬ '\x7d' ∈ rest →
        envRun alnum ctx (pre ++ '$' :: '\x7b' ::rest) =
          (envRun alnum ctx rest).mapOk (fun out => pre ++ '$' :: '\x7b' ::out))
  ∧ env_with_context alnum "$\x7bVAR".data ctx = .ok (.ok (.owned "$\x7bVAR".data))
  ∧ (∀ (c : Char) (rest : List Char), ¬ c = '\x7b' →
        is_valid_var_name_char alnum c = false → ¬ c = '$' →
        envRun alnum ctx ('$' ::c::rest) =
          (envRun alnum ctx (c::rest)).mapOk (fun out => '$' ::out))
  ∧ envRun alnum ctx ['$'] = .ok (.ok ['$']) := by
  refine ⟨?_, ?_, ?_, ?_⟩
  · intro pre rest hpre hr
    rw [envRun_prepend alnum ctx pre ('$' :: '\x7b' ::rest) hpre rfl,
      envRun_cont alnum ctx _ _ _ (step_braced_unterminated alnum ctx rest hr), mapOk_mapOk]
    rfl
  · have hstep : envStepO alnum ctx "$\x7bVAR".data = .cont ['$', '\x7b'] "VAR".data := by
      show envStepO alnum ctx ('$' :: '\x7b' ::"VAR".data) = _
      exact step_braced_unterminated alnum ctx "VAR".data (by decide)
    have hrun : envRun alnum ctx "$\x7bVAR".data = .ok (.ok "$\x7bVAR".data) := by
      rw [envRun_cont alnum ctx _ _ _ hstep,
        envRun_no_dollar alnum ctx "VAR".data (by decide)]
      rfl
    rw [env_of_mem_dollar alnum ctx _ (by decide), hrun]
  · intro c rest hcb hcv hcd
    rw [envRun_cont alnum ctx _ _ _ (step_lone alnum ctx c rest hcb hcv hcd)]
    rfl
  · rfl

/-- Witness for C7 with a concrete prefix and unterminated brace. -/
theorem c7_malformed_passthrough_witness :
    envRun asciiAlnum ctxNone ("a".data ++ '$' :: '\x7b' ::"VX".data) =
      (envRun asciiAlnum ctxNone "VX".data).mapOk (fun out => "a".data ++ '$' :: '\x7b' ::out) :=
  (c7_malformed_passthrough asciiAlnum ctxNone).1 "a".data "VX".data (by decide) (by decide)

/-- Counterexample to claim C8: inside a braced reference the two characters
`$$` are not an escape — they become part of the looked-up name.  With a
lookup resolving the name `$$` to `X`, the input `$\x7b$$\x7d` expands to `X`
with no literal dollar in the output, and with a lookup whose only failure is
on the name `$$`, the same input fails with exactly that name, so a lookup is
invoked for the `$$` occurrence. -/
theorem c8_escape_counterexample :
    env_with_context asciiAlnum "$\x7b$$\x7d".data ctxDollarsRes = .ok (.ok (.owned "X".data))
  ∧ env_with_context asciiAlnum "$\x7b$$\x7d".data ctxDollarsErr =
      .ok (.error ⟨"$$".data, ()⟩) :=
  ⟨rfl, rfl⟩

/-- Claim C8 as amended: whenever the scanner reaches a `$` immediately
followed by another `$` outside a braced reference, the pair is an escape:
exactly one literal `$` is emitted, both characters are consumed, and no
lookup is invoked; in particular `$$` expands to `$` and `a$$b` to `a$b` for
every lookup function. -/
theorem c8_escape_amended {ε : Type} (alnum : Char → Bool)
    (ctx : List Char → Except ε (Option (List Char))) (hds : alnum '$' = false) :
    (∀ (pre rest : List Char), (∀ c ∈ pre, ¬ c = '$') →
        envRun alnum ctx (pre ++ '$' :: '$' ::rest) =
          (envRun alnum ctx rest).mapOk (fun out => pre ++ '$' ::out))
  ∧ env_with_context alnum "$$".data ctx = .ok (.ok (.owned "$".data))
  ∧ env_with_context alnum "a$$b".data ctx = .ok (.ok (.owned "a$b".data)) := by
  refine ⟨?_, ?_, ?_⟩
  · intro pre rest hpre
    rw [envRun_prepend alnum ctx pre ('$' :: '$' ::rest) hpre rfl,
      envRun_cont alnum ctx _ _ _ (step_escape alnum ctx rest hds), mapOk_mapOk]
    rfl
  · have hstep : envStepO alnum ctx "$$".data = .cont ['$'] [] := by
      show envStepO alnum ctx ('$' :: '$' ::[]) = _
      exact step_escape alnum ctx [] hds
    have hrun : envRun alnum ctx "$$".data = .ok (.ok "$".data) := by
      rw [envRun_cont alnum ctx _ _ _ hstep,
        show envRun alnum ctx ([] : List Char) = .ok (.ok []) from rfl]
      rfl
    rw [env_of_mem_dollar alnum ctx _ (by decide), hrun]
  · have hstep : envStepO alnum ctx ('$' :: '$' ::"b".data) = .cont ['$'] "b".data :=
      step_escape alnum ctx "b".data hds
    have hrun : envRun alnum ctx "a$$b".data = .ok (.ok "a$b".data) := by
      show envRun alnum ctx ("a".data ++ '$' :: '$' ::"b".data) = _
      rw [envRun_prepend alnum ctx "a".data ('$' :: '$' ::"b".data) (by decide) rfl,
        envRun_cont alnum ctx _ _ _ hstep,
        envRun_no_dollar alnum ctx "b".data (by decide)]
      rfl
    rw [env_of_mem_dollar alnum ctx _ (by decide), hrun]

/-- Witness for the amended C8. -/
theorem c8_escape_amended_witness :
    env_with_context asciiAlnum "$$".data ctxNone = .ok (.ok (.owned "$".data)) :=
  (c8_escape_amended asciiAlnum ctxNone (by decide)).2.1

/-- Claim C9: for a braced reference with a matching brace, the name passed
to the lookup is exactly the text strictly between `\x7b` and the first
subsequent `\x7d` — possibly empty — a resolved value is substituted and an
error is reported under exactly that name, scanning resumes after the
closing brace, and `$\x7b\x7d` triggers a lookup with the empty name. -/
theorem c9_braced_name_extraction {ε : Type} (alnum : Char → Bool)
    (ctx : List Char → Except ε (Option (List Char))) :
    (∀ (pre name rest : List Char), (∀ c ∈ pre, ¬ c = '$') → (∀ c ∈ name, ¬ c = '\x7d') →
        ((∀ v : List Char, ctx name = .ok (some v) →
            envRun alnum ctx (pre ++ '$' :: '\x7b' ::(name ++ '\x7d' ::rest)) =
              (envRun alnum ctx rest).mapOk (fun out => pre ++ (v ++ out)))
         ∧ (∀ e : ε, ctx name = .error e →
            envRun alnum ctx (pre ++ '$' :: '\x7b' ::(name ++ '\x7d' ::rest)) =
              .ok (.error ⟨name, e⟩))))
  ∧ (∀ v : List Char, ctx [] = .ok (some v) →
        env_with_context alnum "$\x7b\x7d".data ctx = .ok (.ok (.owned v))) := by
  constructor
  · intro pre name rest hpre hn
    constructor
    · intro v hctx
      rw [envRun_prepend alnum ctx pre ('$' :: '\x7b' ::(name ++ '\x7d' ::rest)) hpre rfl]
      have hstep : envStepO alnum ctx ('$' :: '\x7b' ::(name ++ '\x7d' ::rest)) = .cont v rest := by
        rw [step_braced alnum ctx name rest hn, hctx]
      rw [envRun_cont alnum ctx _ _ _ hstep, mapOk_mapOk]
    · intro e hctx
      rw [envRun_prepend alnum ctx pre ('$' :: '\x7b' ::(name ++ '\x7d' ::rest)) hpre rfl]
      have hstep : envStepO alnum ctx ('$' :: '\x7b' ::(name ++ '\x7d' ::rest)) =
          .err ⟨name, e⟩ := by
        rw [step_braced alnum ctx name rest hn, hctx]
      rw [envRun_err alnum ctx _ _ hstep]
      rfl
  · intro v hctx
    have hstep0 := step_braced alnum ctx [] [] (fun c hc => by cases hc)
    rw [hctx] at hstep0
    have hstep : envStepO alnum ctx "$\x7b\x7d".data = .cont v [] := hstep0
    have hrun : envRun alnum ctx "$\x7b\x7d".data = .ok (.ok v) := by
      rw [envRun_cont alnum ctx _ _ _ hstep,
        show envRun alnum ctx ([] : List Char) = .ok (.ok []) from rfl]
      show RunRes.ok (.ok (v ++ [])) = _
      rw [List.append_nil]
    rw [env_of_mem_dollar alnum ctx _ (by decide), hrun]

/-- Witness for C9: the empty braced name is looked up and substituted. -/
theorem c9_braced_name_extraction_witness :
    env_with_context asciiAlnum "$\x7b\x7d".data ctxEmptyName = .ok (.ok (.owned "E".data)) :=
  (c9_braced_name_extraction asciiAlnum ctxEmptyName).2 "E".data rfl

end ShellExpand
